import Mathlib

/-!
Verification development for a retrieval-augmented-generation learning
platform.  The embedding models text as `List Char` (ASCII-faithful to the
Python source's string operations) and translates each relevant source
function from the repository:

* `data_processing.py` — PDF text normalization (`parse_pdf`), chunking
  (`text_to_docs`, via langchain's `RecursiveCharacterTextSplitter` with
  `chunk_size=4000`, `chunk_overlap=200`,
  `separators=["\n\n", "\n", ".", " "]`, `keep_separator=True`,
  `strip_whitespace=True`), the relevance filter (`nlp_keywords`,
  `is_nlp_relevant`, `is_topic_nlp`), and batch ingestion
  (`get_chroma_index_for_pdf`).
* `app.py` — the topic gate really used by the UI (`is_nlp_topic`).
* `chatbot.py` / `study_materials.py` — context assembly, study-material
  record construction, and the flashcard export formats.
-/

/-- Lower-case a text character-wise, modelling Python's `str.lower()` on
the ASCII range (`Char.toLower` maps exactly the letters `A`–`Z`). -/
def toLowerL (s : List Char) : List Char := s.map Char.toLower

/-- Substring test, modelling Python's `keyword in text` (and
`re.search(re.escape(sep), text)`): true iff `sep` occurs contiguously in
`l`.  The empty pattern occurs in every text. -/
def containsSubstr (l sep : List Char) : Bool :=
  match l with
  | [] => sep.isEmpty
  | _ :: rest => sep.isPrefixOf l || containsSubstr rest sep

theorem containsSubstr_iff (l sep : List Char) :
    containsSubstr l sep = true ↔ sep <:+: l := by
  induction l with
  | nil =>
    simp [containsSubstr, List.isEmpty_iff]
  | cons c rest ih =>
    simp only [containsSubstr, Bool.or_eq_true, List.isPrefixOf_iff_prefix, ih,
      List.infix_cons_iff]

theorem containsSubstr_of_occurs {l sep : List Char} (h : sep <:+: l) :
    containsSubstr l sep = true := (containsSubstr_iff l sep).mpr h

/-- The domain keyword set `nlp_keywords` from `data_processing.py`,
transcribed in source order.  The source writes it as a Python set literal
(in which `"lexical semantics"` appears twice); membership semantics are
unaffected by keeping it as a list. -/
def nlp_keywords : List String :=
  ["tokenization", "linguistics", "language", "parsing", "syntax", "semantic",
   "semantics", "nlp", "natural language processing", "computational linguistics",
   "text analysis", "language model", "machine translation", "translation",
   "sentiment analysis", "named entity recognition", "part of speech", "sentiment",
   "morphology", "phonetics", "phonology", "pragmatics", "corpus", "recognition",
   "machine learning", "deep learning", "text classification", "learning",
   "speech recognition", "text generation", "information extraction", "extraction",
   "word embeddings", "language understanding", "text summarization", "text",
   "question answering", "topic modeling", "text mining", "semantic analysis",
   "syntactic analysis", "corpus linguistics", "discourse analysis", "machine",
   "morphological analysis", "part of speech tagging", "dependency parsing",
   "transformer models", "bert", "gpt", "word2vec", "language representation",
   "text preprocessing", "sequence labeling", "neural networks", "lemmatization",
   "language generation", "text similarity", "document classification", "information retrieval",
   "natural language understanding", "contextual embeddings", "dialog systems",
   "zero-shot learning", "few-shot learning", "transfer learning",
   "adversarial examples", "attention mechanisms", "vector space models",
   "knowledge graphs", "semantic web", "asr", "automatic speech recognition",
   "ocr", "optical character recognition", "nlp pipelines", "pipelines", "fine-tuning",
   "data augmentation", "feature extraction", "anaphora resolution",
   "coreference resolution", "cross-lingual models", "multilingual models",
   "word sense disambiguation", "language identification", "semantic role labeling",
   "stop word removal", "tf-idf", "n-grams", "bag-of-words", "sequence-to-sequence models",
   "pre-trained models", "recurrent neural networks", "long short-term memory networks",
   "automatic text generation", "speech synthesis", "interactive ai", "lexical semantics",
   "natural language generation", "constituency", "recursion", "discreteness",
   "productivity", "arbitrariness", "reliance on context", "variability",
   "descriptive approach", "defining language", "diversity of linguistics",
   "articulatory phonetics", "vocal tract", "articulation",
   "manners of articulation", "transcription", "consonants", "vowels",
   "suprasegmentals", "length", "tone", "intonation", "syllable structure",
   "stress", "acoustic phonetics", "sound waves", "hearing",
   "measuring speech", "phonemes", "allophones", "phonotactics",
   "alternation", "phonological alternations", "morphemes",
   "affixation", "reduplication", "ablaut", "suppletion",
   "derivation", "inflection", "projection", "merger",
   "adjunction", "movement", "binding theory", "head-complement order",
   "thematic roles", "lexical semantics", "logical words",
   "quantification", "indexicality", "context-dependency", "anaphora",
   "presupposition", "gricean maxims", "implicature",
   "speech acts", "narratives", "participation frameworks",
   "adjacency pairs", "discourse markers", "language acquisition",
   "critical period hypothesis", "first language acquisition",
   "second language acquisition", "bilingualism", "code-switching",
   "neurolinguistics", "psycholinguistics", "parsing strategies",
   "syntactic ambiguity", "semantic ambiguity", "pragmatic inference",
   "collocations", "finite state automata", "context-free grammar"]

/-- A parsed page: extracted text plus its 1-based page number, the
`(text, page_number)` tuples produced by `parse_pdf`. -/
abbrev Page := List Char × Nat

/-- `is_nlp_relevant` from `data_processing.py`: scan the pages in order
and return true as soon as some page's lower-cased text contains some
keyword as a substring. -/
def is_nlp_relevant : List Page → Bool
  | [] => false
  | (text, _) :: rest =>
    if nlp_keywords.any (fun kw => containsSubstr (toLowerL text) kw.data) then
      true
    else is_nlp_relevant rest

theorem is_nlp_relevant_cons (text : List Char) (n : Nat) (rest : List Page) :
    is_nlp_relevant ((text, n) :: rest) =
      (nlp_keywords.any (fun kw => containsSubstr (toLowerL text) kw.data)
        || is_nlp_relevant rest) := by
  by_cases h : nlp_keywords.any (fun kw => containsSubstr (toLowerL text) kw.data) = true
  · simp [is_nlp_relevant, h]
  · rw [Bool.not_eq_true] at h
    simp [is_nlp_relevant, h]

theorem is_nlp_relevant_iff (pages : List Page) :
    is_nlp_relevant pages = true ↔
      ∃ p ∈ pages, ∃ kw ∈ nlp_keywords, kw.data <:+: toLowerL p.1 := by
  induction pages with
  | nil => simp [is_nlp_relevant]
  | cons p rest ih =>
    obtain ⟨text, n⟩ := p
    rw [is_nlp_relevant_cons, Bool.or_eq_true, ih]
    simp [List.any_eq_true, containsSubstr_iff]

theorem toLower_tokenization :
    toLowerL ("tokenization").data = ("tokenization").data := by decide

/-- Claim C1: the document-admission mode of the relevance filter returns
true iff some page's lower-cased text contains some keyword of
`nlp_keywords` as a substring (pages scanned in original order with
short-circuit, as the recursion shows); in particular any document in
which some page's text contains the literal substring `tokenization` is
admitted. -/
theorem c1_relevance_filter_admission (pages : List Page) :
    (is_nlp_relevant pages = true ↔
      ∃ p ∈ pages, ∃ kw ∈ nlp_keywords, kw.data <:+: toLowerL p.1) ∧
    ((∃ p ∈ pages, ("tokenization").data <:+: p.1) →
      is_nlp_relevant pages = true) := by
  refine ⟨is_nlp_relevant_iff pages, ?_⟩
  rintro ⟨p, hp, hinf⟩
  refine (is_nlp_relevant_iff pages).mpr ⟨p, hp, "tokenization", ?_, ?_⟩
  · exact List.mem_cons_self _ _
  · have := hinf.map Char.toLower
    rwa [show List.map Char.toLower ("tokenization").data =
        ("tokenization").data from by decide] at this

/-- Claim C1 witness: a concrete one-page document whose text contains the
literal substring `tokenization` is admitted. -/
theorem c1_relevance_filter_admission_witness :
    (∃ p ∈ [((("Intro to Tokenization and tokenization basics").data : List Char), 1)],
        ("tokenization").data <:+: p.1) ∧
    is_nlp_relevant [((("Intro to Tokenization and tokenization basics").data : List Char), 1)] = true := by
  refine ⟨by decide, ?_⟩
  exact (c1_relevance_filter_admission _).2 (by decide)

/-- Python whitespace for `str.split()`, `str.strip()` and the regex class
used by the parser's normalization, on the ASCII range. -/
def isPyWhitespace (c : Char) : Bool :=
  c = ' ' || c = '\t' || c = '\n' || c = '\r' || c = '\x0B' || c = '\x0C'

/-- Helper for `pySplit`: accumulate the current word (reversed) and emit it
at each whitespace boundary. -/
def pySplitGo (acc : List Char) : List Char → List (List Char)
  | [] => if acc.isEmpty then [] else [acc.reverse]
  | c :: rest =>
    if isPyWhitespace c then
      if acc.isEmpty then pySplitGo [] rest
      else acc.reverse :: pySplitGo [] rest
    else pySplitGo (c :: acc) rest

/-- Python's `str.split()` with no argument: split on runs of whitespace,
discarding empty words. -/
def pySplit (l : List Char) : List (List Char) := pySplitGo [] l

/-- `is_topic_nlp` from `data_processing.py`: lower-case the input, split it
into whitespace-separated words, and test whether the resulting word set
intersects `nlp_keywords` (exact word equality).  This function is defined
in the source but never called by the application. -/
def is_topic_nlp (user_input : List Char) : Bool :=
  (pySplit (toLowerL user_input)).any fun w => nlp_keywords.any fun kw => kw.data == w

/-- The distinct topic keyword set `nlp_topics` hard-coded inside
`is_nlp_topic` in `app.py`, transcribed in source order. -/
def nlp_topics : List String :=
  ["natural language processing", "nlp", "computational linguistics",
   "text analysis", "language model", "machine learning", "deep learning",
   "tokenization", "parsing", "text classification", "named entity recognition",
   "sentiment analysis", "machine translation", "speech recognition",
   "text generation", "information extraction", "word embeddings",
   "language understanding", "text summarization", "question answering",
   "topic modeling", "text mining", "semantic analysis", "syntactic analysis",
   "corpus linguistics", "discourse analysis", "morphological analysis",
   "part of speech tagging", "dependency parsing", "transformer models",
   "bert", "gpt", "word2vec", "language representation", "text preprocessing",
   "sequence labeling", "neural networks", "language generation",
   "text similarity", "document classification", "information retrieval"]

/-- `is_nlp_topic` from `app.py`, the gate the UI actually applies to
topic-generation requests: lower-case the topic and test whether ANY term
of `nlp_topics` occurs in it as a substring. -/
def is_nlp_topic (topic : List Char) : Bool :=
  nlp_topics.any fun t => containsSubstr (toLowerL topic) t.data

/-- Claim C6 counterexample: the topic gate the application applies,
`is_nlp_topic`, is neither exact-word-based nor backed by the canonical
keyword set.  At the concrete topic `syntax`: the word `syntax` is a member
of `nlp_keywords` (so the claimed word-intersection test, implemented by
the never-called `is_topic_nlp`, accepts), yet `is_nlp_topic` rejects,
because its own hard-coded set `nlp_topics` has no term occurring in
`syntax`.  At the concrete topic `tokenizations` the gate accepts by mere
substring match although none of its whitespace-separated words is a
keyword, refuting exact word membership as well. -/
theorem c6_topic_gate_cex :
    is_nlp_topic (("syntax").data) = false ∧
    ("syntax") ∈ nlp_keywords ∧
    (("syntax") ∈ nlp_topics) = False ∧
    is_topic_nlp (("syntax").data) = true ∧
    is_nlp_topic (("tokenizations").data) = true ∧
    is_topic_nlp (("tokenizations").data) = false := by
  refine ⟨by decide, by decide, ?_, by decide, by decide, by decide⟩
  simp only [eq_iff_iff, iff_false]
  decide

/-- Claim C6 (amended): the source has two diverging topic gates.
`is_topic_nlp` (defined in `data_processing.py` next to the admission
filter, but never called) returns true iff some keyword of the canonical
`nlp_keywords` set equals one of the lower-cased whitespace-separated words
of the topic; the gate actually applied to topic-generation requests,
`is_nlp_topic` in `app.py`, returns true iff some term of its own distinct
hard-coded set `nlp_topics` occurs in the lower-cased topic as a substring. -/
theorem c6_topic_gates (input : List Char) :
    (is_topic_nlp input = true ↔
      ∃ kw ∈ nlp_keywords, kw.data ∈ pySplit (toLowerL input)) ∧
    (is_nlp_topic input = true ↔
      ∃ t ∈ nlp_topics, t.data <:+: toLowerL input) := by
  constructor
  · rw [is_topic_nlp]
    simp only [List.any_eq_true, beq_iff_eq]
    constructor
    · rintro ⟨w, hw, kw, hkw, rfl⟩
      exact ⟨kw, hkw, hw⟩
    · rintro ⟨kw, hkw, hw⟩
      exact ⟨kw.data, hw, kw, hkw, rfl⟩
  · rw [is_nlp_topic]
    simp only [List.any_eq_true, containsSubstr_iff]

/-- One retrieved passage as the flows read it back from the vector store:
`page_content` plus the provenance metadata stored at ingestion. -/
structure RResult where
  page_content : String
  filename : String
  page : Nat
deriving DecidableEq

/-- Concatenation of a list of strings (Python's `"".join`, and the shape
of repeated `context += block`). -/
def joinStrings : List String → String
  | [] => ""
  | s :: rest => s ++ joinStrings rest

/-- The per-passage block appended by the chat flow's context loop in
`chatbot.py`: `context += f"\n{page_content}\n[Source: {filename}, Page: {page}]\n"`. -/
def chatCitationBlock (r : RResult) : String :=
  "\n" ++ r.page_content ++ "\n[Source: " ++ r.filename ++ ", Page: "
    ++ Nat.repr r.page ++ "]\n"

/-- The chat flow's context assembly: start from the empty string and
append one citation block per retrieval result, in result order. -/
def buildChatContext (results : List RResult) : String :=
  results.foldl (fun acc r => acc ++ chatCitationBlock r) ""

/-- The per-passage block appended by the study-material flow's context
loop in `study_materials.py`:
`context += f"\nFrom {filename}, Page {page}:\n"` then
`context += f"{page_content}\n"`. -/
def studyContextBlock (r : RResult) : String :=
  "\nFrom " ++ r.filename ++ ", Page " ++ Nat.repr r.page ++ ":\n"
    ++ r.page_content ++ "\n"

/-- The study-material flow's context assembly. -/
def buildStudyContext (results : List RResult) : String :=
  results.foldl (fun acc r => acc ++ studyContextBlock r) ""

theorem foldl_append_eq_joinStrings (f : RResult → String) (l : List RResult)
    (a : String) :
    l.foldl (fun acc r => acc ++ f r) a = a ++ joinStrings (l.map f) := by
  induction l generalizing a with
  | nil => simp [joinStrings]
  | cons r rest ih =>
    simp only [List.foldl_cons, List.map_cons, joinStrings, ih,
      String.append_assoc]

/-- Claim C3 counterexample: the study-material flow's context assembler
puts no bracketed citation tag after the passage text.  For the concrete
one-passage retrieval result with content `abc` from document `doc`,
page 2, the output is `\nFrom doc, Page 2:\nabc\n` and contains neither
the full tag `[Source: doc, Page: 2]` nor even the substring `[Source:`. -/
theorem c3_study_context_cex :
    buildStudyContext [{ page_content := "abc", filename := "doc", page := 2 }]
      = "\nFrom doc, Page 2:\nabc\n" ∧
    containsSubstr ("\nFrom doc, Page 2:\nabc\n").data
      ("[Source: doc, Page: 2]").data = false ∧
    containsSubstr ("\nFrom doc, Page 2:\nabc\n").data ("[Source:").data = false := by
  refine ⟨rfl, by decide, by decide⟩

/-- Claim C3 (amended): the chat flow's context assembler emits, in result
order, one block per passage consisting of the passage text followed by
exactly one bracketed citation tag built from that passage's stored
metadata (blocks end and start with a newline, so consecutive passages are
separated by a blank line), and yields the empty string on the empty
retrieval result; the study-material flow's context assembler instead
prefixes each passage text with a `From <document>, Page <page>:` header
line and emits no bracketed tag, likewise yielding the empty string on the
empty result. -/
theorem c3_context_assembly (results : List RResult) :
    buildChatContext results =
      joinStrings (results.map fun r =>
        "\n" ++ r.page_content ++ "\n[Source: " ++ r.filename ++ ", Page: "
          ++ Nat.repr r.page ++ "]\n") ∧
    buildChatContext [] = "" ∧
    buildStudyContext results =
      joinStrings (results.map fun r =>
        "\nFrom " ++ r.filename ++ ", Page " ++ Nat.repr r.page ++ ":\n"
          ++ r.page_content ++ "\n") ∧
    buildStudyContext [] = "" := by
  refine ⟨?_, rfl, ?_, rfl⟩
  · rw [buildChatContext, foldl_append_eq_joinStrings]
    rfl
  · rw [buildStudyContext, foldl_append_eq_joinStrings]
    rfl

/-- What a query-time flow does after retrieval: either it calls the
generation service with an assembled context string, or it short-circuits
to a fixed canned message without calling generation. -/
inductive GenOutcome where
  | generated (context : String) : GenOutcome
  | canned (message : String) : GenOutcome
deriving DecidableEq

/-- The apology string `process_chat_message` returns when the vector
database is absent. -/
def chatApology : String :=
  "I'm sorry, but I don't have access to the document database at the moment."

/-- `process_chat_message` from `chatbot.py`, with the vector index
modelled by the results its `similarity_search` call would return (`none`
when the index is absent): when the index is present the flow assembles
the citation context and calls generation with it; when it is absent the
flow returns the apology string and generation is never called. -/
def process_chat_message (search_results : Option (List RResult)) : GenOutcome :=
  match search_results with
  | some results => .generated (buildChatContext results)
  | none => .canned chatApology

/-- The retrieval-and-generation part of `generate_study_materials` from
`study_materials.py`: the context starts empty, passage blocks are added
only when the vector index is present, and the flow always proceeds to
call the generation service with the assembled context. -/
def study_flow_generation (search_results : Option (List RResult)) : GenOutcome :=
  .generated (match search_results with
    | some results => buildStudyContext results
    | none => "")

/-- Claim C4 counterexample: with the vector index absent, the chat flow
does not proceed to ungrounded generation — it substitutes the fixed
apology message, and in particular its outcome is not generation over the
empty context. -/
theorem c4_chat_absent_index_cex :
    process_chat_message none = .canned chatApology ∧
    (process_chat_message none == .generated "") = false := by
  exact ⟨rfl, by decide⟩

/-- Claim C4 (amended): with the vector index absent the study-material
flow yields the empty context and generation proceeds ungrounded, but the
chat flow (`process_chat_message`) short-circuits to a fixed apology
message instead of calling generation. -/
theorem c4_absent_index_behaviour :
    study_flow_generation none = .generated "" ∧
    process_chat_message none = .canned chatApology := ⟨rfl, rfl⟩

/-- A flashcard as the generation schema defines it. -/
structure Flashcard where
  front : String
  back : String
deriving DecidableEq

/-- An exercise as the generation schema defines it. -/
structure Exercise where
  question : String
  solution : String
deriving DecidableEq

/-- The six required study-guide sections of the generation schema. -/
structure StudyGuide where
  overview : String
  core_concepts : String
  technical_details : String
  practical_applications : String
  challenges : String
  future_directions : String
deriving DecidableEq

/-- A structured generation response, after JSON parsing, with the fields
the schema in `generate_study_materials` requires. -/
structure GenResponse where
  title : String
  study_guide : StudyGuide
  flashcards : List Flashcard
  exercises : List Exercise
deriving DecidableEq

/-- The Study Material Record dictionary returned by
`generate_study_materials`. -/
structure StudyMaterialRecord where
  title : String
  subtitle : String
  study_guide : StudyGuide
  flashcards : List Flashcard
  exercises : List Exercise
deriving DecidableEq

/-- The record construction at the end of `generate_study_materials`:
the title is rebuilt from the topic, the subtitle from the current time
(passed here as the pre-formatted string `generated_on`), the study guide
is taken as generated, the flashcards are truncated to the first 12 and
the exercises to the first 4.  The response's own `title` field is not
read. -/
def build_study_material_record (topic generated_on : String)
    (g : GenResponse) : StudyMaterialRecord :=
  { title := topic ++ " Study Guide"
  , subtitle := "Generated on " ++ generated_on
  , study_guide := g.study_guide
  , flashcards := g.flashcards.take 12
  , exercises := g.exercises.take 4 }

/-- Claim C5: the returned record holds at most 12 flashcards and at most
4 exercises, and a generation response with 20 flashcards is truncated to
exactly the first 12 in response order. -/
theorem c5_record_truncation (topic generated_on : String) (g : GenResponse) :
    (build_study_material_record topic generated_on g).flashcards.length ≤ 12 ∧
    (build_study_material_record topic generated_on g).exercises.length ≤ 4 ∧
    (g.flashcards.length = 20 →
      (build_study_material_record topic generated_on g).flashcards
          = g.flashcards.take 12 ∧
      (build_study_material_record topic generated_on g).flashcards.length = 12) := by
  refine ⟨?_, ?_, fun h => ⟨rfl, ?_⟩⟩
  · simp [build_study_material_record]
  · simp [build_study_material_record]
  · simp [build_study_material_record, h]

/-- Claim C5 witness: a concrete response with 20 flashcards yields a
record with exactly the first 12 of them. -/
theorem c5_record_truncation_witness :
    ((⟨"t", ⟨"", "", "", "", "", ""⟩, List.replicate 20 ⟨"q", "a"⟩, []⟩ :
        GenResponse).flashcards.length = 20) ∧
    ((build_study_material_record "Parsing" "today"
        ⟨"t", ⟨"", "", "", "", "", ""⟩, List.replicate 20 ⟨"q", "a"⟩, []⟩).flashcards
        = (List.replicate 20 (⟨"q", "a"⟩ : Flashcard)).take 12 ∧
      (build_study_material_record "Parsing" "today"
        ⟨"t", ⟨"", "", "", "", "", ""⟩, List.replicate 20 ⟨"q", "a"⟩, []⟩).flashcards.length
        = 12) := by
  exact ⟨by simp, (c5_record_truncation "Parsing" "today" _).2.2 (by simp)⟩

/-- Claim C10: the record's title is the topic followed by ` Study Guide`,
and the record does not depend on the generation response's own `title`
field: replacing that field with any other string leaves the returned
record unchanged. -/
theorem c10_title_rebuilt (topic generated_on other_title : String)
    (g : GenResponse) :
    (build_study_material_record topic generated_on g).title
        = topic ++ " Study Guide" ∧
    build_study_material_record topic generated_on g
        = build_study_material_record topic generated_on
            { g with title := other_title } :=
  ⟨rfl, rfl⟩

/-- The character cleanup `generate_quizlet_format` applies to each side of
a card: `.replace('\n', ' ').replace('\t', ' ')`. -/
def quizletClean (s : String) : String :=
  ⟨s.data.map fun c => if c = '\n' || c = '\t' then ' ' else c⟩

/-- `generate_quizlet_format` from `study_materials.py`: one
tab-separated line per flashcard, in order. -/
def generate_quizlet_format (flashcards : List Flashcard) : String :=
  flashcards.foldl
    (fun acc card =>
      acc ++ quizletClean card.front ++ "\t" ++ quizletClean card.back ++ "\n")
    ""

/-- One CSV field under the `csv` module's default minimal quoting: a
field containing a delimiter, quote or line-break character is wrapped in
double quotes with embedded quotes doubled. -/
def csvField (s : String) : String :=
  if s.data.any (fun c => c = ',' || c = '"' || c = '\n' || c = '\r') then
    "\"" ++ ⟨s.data.foldr
        (fun c acc => if c = '"' then '"' :: '"' :: acc else c :: acc) []⟩ ++ "\""
  else s

/-- `generate_csv_format` from `study_materials.py`: header row
`Front,Back` followed by one row per card (the `csv` module's default
line terminator is `\r\n`). -/
def generate_csv_format (flashcards : List Flashcard) : String :=
  "Front,Back\r\n" ++
    flashcards.foldl
      (fun acc card => acc ++ csvField card.front ++ "," ++ csvField card.back ++ "\r\n")
      ""

/-- One template of an Anki model, as `generate_anki_deck` constructs it. -/
structure AnkiTemplate where
  name : String
  qfmt : String
  afmt : String
deriving DecidableEq

/-- The note model `generate_anki_deck` constructs; `modelId` receives the
value of a fresh `random.randrange(1 << 30, 1 << 31)` draw at every call. -/
structure AnkiModel where
  modelId : Nat
  name : String
  fieldNames : List String
  templates : List AnkiTemplate
deriving DecidableEq

/-- A note added to the deck: the card's two field values. -/
structure AnkiNote where
  fields : List String
deriving DecidableEq

/-- The package `generate_anki_deck` writes out: the model, the deck
(`deckId` is the second fresh `random.randrange(1 << 30, 1 << 31)` draw),
its title and its notes.  The written `.apkg` bytes are a function of this
structure. -/
structure AnkiDeckPackage where
  model : AnkiModel
  deckId : Nat
  deckTitle : String
  notes : List AnkiNote
deriving DecidableEq

/-- `generate_anki_deck` from `study_materials.py`, with the two
`random.randrange(1 << 30, 1 << 31)` draws made explicit parameters
(`model_id` for the model, `deck_id` for the deck): every call of the
source draws both afresh from the global random generator. -/
def generate_anki_deck (model_id deck_id : Nat) (flashcards : List Flashcard)
    (deck_title : String) : AnkiDeckPackage :=
  { model :=
      { modelId := model_id
      , name := "Simple Model"
      , fieldNames := ["Question", "Answer"]
      , templates :=
          [{ name := "Card 1"
           , qfmt := "\x7b\x7bQuestion\x7d\x7d"
           , afmt := "\x7b\x7bFrontSide\x7d\x7d<hr id=\"answer\">\x7b\x7bAnswer\x7d\x7d" }] }
  , deckId := deck_id
  , deckTitle := deck_title
  , notes := flashcards.map fun card => { fields := [card.front, card.back] } }

/-- Claim C9 counterexample: the Anki export is not a function of the
record alone.  Two runs over the same record whose fresh
`randrange(1 << 30, 1 << 31)` draws are the concrete, in-range values
`2 ^ 30` and `2 ^ 30 + 1` produce different packages. -/
theorem c9_anki_export_cex :
    (2 ^ 30 ≤ 2 ^ 30 ∧ 2 ^ 30 < 2 ^ 31 ∧ 2 ^ 30 ≤ 2 ^ 30 + 1 ∧ 2 ^ 30 + 1 < 2 ^ 31) ∧
    (generate_anki_deck (2 ^ 30) (2 ^ 30) [{ front := "q", back := "a" }] "T"
      == generate_anki_deck (2 ^ 30 + 1) (2 ^ 30 + 1) [{ front := "q", back := "a" }] "T")
      = false := by
  exact ⟨⟨by decide, by decide, by decide, by decide⟩, by decide⟩

/-- Claim C9 (amended): the tab-separated and CSV flashcard exports are
pure functions of the record's flashcards, but the Anki export is not
run-deterministic: the package embeds the per-call random deck id (and
model id), so two export runs over the same record whose draws differ
produce different packages. -/
theorem c9_export_run_dependence (m d m' d' : Nat) (cards : List Flashcard)
    (title : String) (hd : d ≠ d') :
    (generate_anki_deck m d cards title).deckId = d ∧
    (generate_anki_deck m d cards title).model.modelId = m ∧
    generate_anki_deck m d cards title ≠ generate_anki_deck m' d' cards title :=
  ⟨rfl, rfl, fun h => hd (congrArg AnkiDeckPackage.deckId h)⟩

/-- Claim C9 witness: the run-dependence theorem applied at two concrete
unequal deck-id draws. -/
theorem c9_export_run_dependence_witness :
    ((2 ^ 30 : Nat) ≠ 2 ^ 30 + 1) ∧
    ((generate_anki_deck (2 ^ 30) (2 ^ 30) [] "T").deckId = 2 ^ 30 ∧
      (generate_anki_deck (2 ^ 30) (2 ^ 30) [] "T").model.modelId = 2 ^ 30 ∧
      generate_anki_deck (2 ^ 30) (2 ^ 30) [] "T"
        ≠ generate_anki_deck (2 ^ 30) (2 ^ 30 + 1) [] "T") :=
  ⟨by decide, c9_export_run_dependence (2 ^ 30) (2 ^ 30) (2 ^ 30) (2 ^ 30 + 1) [] "T" (by decide)⟩

/-- Python's `str.strip()` with no argument: drop leading and trailing
whitespace. -/
def pyStrip (l : List Char) : List Char :=
  ((l.dropWhile isPyWhitespace).reverse.dropWhile isPyWhitespace).reverse

/-- A word character for the regex class `\w`, on the ASCII range. -/
def isWordChar (c : Char) : Bool := c.isAlphanum || c = '_'

/-- Maximal `\w` run at the head of the text: `(run, rest)`. -/
def wordRun : List Char → List Char × List Char
  | [] => ([], [])
  | c :: rest =>
    if isWordChar c then
      let p := wordRun rest
      (c :: p.1, p.2)
    else ([], c :: rest)

theorem wordRun_append (l : List Char) : (wordRun l).1 ++ (wordRun l).2 = l := by
  induction l with
  | nil => rfl
  | cons c rest ih =>
    rw [wordRun]
    split
    · simpa using ih
    · rfl

theorem wordRun_length_le (l : List Char) : (wordRun l).2.length ≤ l.length := by
  have h := congrArg List.length (wordRun_append l)
  rw [List.length_append] at h
  omega

/-- First normalization of `parse_pdf`:
`re.sub(r"(\w+)-\n(\w+)", r"\1\2", text)`, rejoining hyphen-broken words
split across a line break.  The scan advances one character when no match
starts at the current position; a match (maximal word run, `-`, newline,
maximal word run) is replaced by the two runs and the scan resumes after
it, as `re.sub` does. -/
def step1 (l : List Char) : List Char :=
  match l with
  | [] => []
  | c :: rest =>
    if (wordRun (c :: rest)).1.isEmpty then c :: step1 rest
    else
      match h2 : (wordRun (c :: rest)).2 with
      | '-' :: '\n' :: t2 =>
        if (wordRun t2).1.isEmpty then c :: step1 rest
        else (wordRun (c :: rest)).1 ++ (wordRun t2).1 ++ step1 (wordRun t2).2
      | _ => c :: step1 rest
termination_by l.length
decreasing_by
  · simp
  · simp
  · rename_i c hne1 hne2
    have ha := wordRun_length_le (c :: rest)
    have hb := wordRun_length_le t2
    rw [h2] at ha
    simp at ha ⊢
    omega
  · simp

/-- The negative lookbehind `(?<!\n\s)` of the second normalization: true
iff the two original characters before the current newline are a newline
followed by a whitespace character. -/
def lookbehindNlWs (p2 p1 : Option Char) : Bool :=
  match p2, p1 with
  | some a, some b => a = '\n' && isPyWhitespace b
  | _, _ => false

/-- The negative lookahead `(?!\s\n)` of the second normalization: true
iff the text continues with a whitespace character followed by a newline. -/
def lookaheadWsNl : List Char → Bool
  | a :: b :: _ => isPyWhitespace a && b = '\n'
  | _ => false

/-- Scanner for the second normalization, carrying the two preceding
characters of the original (stripped) text: each `\n` that is neither
preceded by `\n\s` nor followed by `\s\n` becomes a space, every other
character is kept. -/
def step2go (p2 p1 : Option Char) : List Char → List Char
  | [] => []
  | c :: rest =>
    (if c = '\n' && !lookbehindNlWs p2 p1 && !lookaheadWsNl rest then ' ' else c)
      :: step2go p1 (some c) rest

/-- Second normalization of `parse_pdf`:
`re.sub(r"(?<!\n\s)\n(?!\s\n)", " ", text.strip())` — strip the text, then
replace each newline not adjacent to the guarding whitespace patterns by a
space.  `re.sub` finds all matches in the original string, so the
lookaround context is taken from the input, not the output. -/
def step2 (l : List Char) : List Char := step2go none none (pyStrip l)

/-- Maximal whitespace run at the head of the text: `(run, rest)`. -/
def wsRun : List Char → List Char × List Char
  | [] => ([], [])
  | c :: rest =>
    if isPyWhitespace c then
      let p := wsRun rest
      (c :: p.1, p.2)
    else ([], c :: rest)

theorem wsRun_append (l : List Char) : (wsRun l).1 ++ (wsRun l).2 = l := by
  induction l with
  | nil => rfl
  | cons c rest ih =>
    rw [wsRun]
    split
    · simpa using ih
    · rfl

theorem wsRun_length (l : List Char) :
    (wsRun l).1.length + (wsRun l).2.length = l.length := by
  have h := congrArg List.length (wsRun_append l)
  rw [List.length_append] at h
  omega

theorem takeWhile_length_lt {p : Char → Bool} {l : List Char}
    (h : ∃ x ∈ l, p x = false) : (l.takeWhile p).length < l.length := by
  induction l with
  | nil => simp at h
  | cons c rest ih =>
    rw [List.takeWhile]
    obtain ⟨x, hx, hpx⟩ := h
    by_cases hc : p c = true
    · rw [hc]
      have : ∃ y ∈ rest, p y = false := by
        rcases List.mem_cons.mp hx with rfl | hmem
        · exact absurd hc (by simp [hpx])
        · exact ⟨x, hmem, hpx⟩
      simpa using ih this
    · rw [Bool.not_eq_true] at hc
      rw [hc]
      simp

/-- The characters of a whitespace run that follow its last newline, when
the run contains one: with greedy backtracking, `\n\s*\n` starting at a
given newline consumes the run up to and including its last newline, and
these trailing characters are where the scan resumes. -/
def splitAfterLastNl (r : List Char) : Option (List Char) :=
  if r.contains '\n' then
    some ((r.reverse.takeWhile fun c => !(c = '\n')).reverse)
  else none

theorem splitAfterLastNl_length {r post : List Char}
    (h : splitAfterLastNl r = some post) : post.length < r.length := by
  rw [splitAfterLastNl] at h
  split at h
  · rename_i hc
    have hnl : '\n' ∈ r.reverse := by
      rw [List.mem_reverse]
      simpa using hc
    injection h with h
    subst h
    rw [List.length_reverse]
    have := takeWhile_length_lt (p := fun c => !(c = '\n')) ⟨'\n', hnl, by simp⟩
    simpa using this
  · exact absurd h (by simp)

/-- Third normalization of `parse_pdf`:
`re.sub(r"\n\s*\n", "\n\n", text)` — each newline followed by a whitespace
run that contains another newline matches through the last newline of the
run (greedy `\s*` with backtracking) and is replaced by exactly one blank
line; the scan resumes after the match. -/
def step3 (l : List Char) : List Char :=
  match l with
  | [] => []
  | c :: rest =>
    if c = '\n' then
      match h : splitAfterLastNl (wsRun rest).1 with
      | some post => '\n' :: '\n' :: step3 (post ++ (wsRun rest).2)
      | none => c :: step3 rest
    else c :: step3 rest
termination_by l.length
decreasing_by
  · have ha := splitAfterLastNl_length h
    have hb := wsRun_length rest
    simp
    omega
  · simp
  · simp

/-- The per-page normalization of `parse_pdf` in `data_processing.py`: the
three substitutions applied in source order (the strip happens inside the
second one). -/
def normalize_page_text (l : List Char) : List Char := step3 (step2 (step1 l))

theorem step3_nil : step3 [] = [] := by rw [step3]

theorem step3_cons_not_nl {c : Char} (rest : List Char) (h : (c = '\n') = False) :
    step3 (c :: rest) = c :: step3 rest := by
  rw [step3]
  simp [h]

theorem step3_cons_nl_some (rest post t : List Char)
    (h : splitAfterLastNl (wsRun rest).1 = some post) (ht : (wsRun rest).2 = t) :
    step3 ('\n' :: rest) = '\n' :: '\n' :: step3 (post ++ t) := by
  rw [step3]
  simp only [if_pos]
  split
  · rename_i post2 heq
    rw [h] at heq
    injection heq with heq
    rw [heq, ht]
  · rename_i heq
    rw [h] at heq
    exact absurd heq (by simp)

theorem step3_cons_nl_none (rest : List Char)
    (h : splitAfterLastNl (wsRun rest).1 = none) :
    step3 ('\n' :: rest) = '\n' :: step3 rest := by
  rw [step3]
  simp only [if_pos]
  split
  · rename_i post2 heq
    rw [h] at heq
    exact absurd heq (by simp)
  · rfl

theorem step1_eq_self_of (l : List Char) (h : '-' ∉ l ∨ '\n' ∉ l) :
    step1 l = l := by
  induction l with
  | nil => rw [step1]
  | cons c rest ih =>
    have hrest : '-' ∉ rest ∨ '\n' ∉ rest := by
      rcases h with h | h
      · exact Or.inl fun hm => h (List.mem_cons_of_mem _ hm)
      · exact Or.inr fun hm => h (List.mem_cons_of_mem _ hm)
    rw [step1]
    split
    · rw [ih hrest]
    · split
      · rename_i t2 h2
        exfalso
        have hd : ('-' : Char) ∈ c :: rest := by
          rw [← wordRun_append (c :: rest)]
          refine List.mem_append_right _ ?_
          rw [h2]
          exact List.mem_cons_self _ _
        have hn : ('\n' : Char) ∈ c :: rest := by
          rw [← wordRun_append (c :: rest)]
          refine List.mem_append_right _ ?_
          rw [h2]
          exact List.mem_cons_of_mem _ (List.mem_cons_self _ _)
        rcases h with h | h
        · exact h hd
        · exact h hn
      · rw [ih hrest]

theorem step2go_no_nl (p2 p1 : Option Char) (l : List Char) (h : '\n' ∉ l) :
    step2go p2 p1 l = l := by
  induction l generalizing p2 p1 with
  | nil => rfl
  | cons c rest ih =>
    have hc : c ≠ '\n' := fun e => h (e ▸ List.mem_cons_self _ _)
    rw [step2go]
    simp [hc, ih _ _ (fun hm => h (List.mem_cons_of_mem _ hm))]

theorem step3_no_nl {l : List Char} (h : '\n' ∉ l) : step3 l = l := by
  induction l with
  | nil => exact step3_nil
  | cons c rest ih =>
    have hc : (c = '\n') = False := by
      simp only [eq_iff_iff, iff_false]
      rintro rfl
      exact h (List.mem_cons_self _ _)
    rw [step3_cons_not_nl _ hc, ih fun hm => h (List.mem_cons_of_mem _ hm)]

theorem dropWhile_idem (p : Char → Bool) (l : List Char) :
    (l.dropWhile p).dropWhile p = l.dropWhile p := by
  induction l with
  | nil => rfl
  | cons c rest ih =>
    rw [List.dropWhile_cons]
    split
    · exact ih
    · rename_i hc
      rw [List.dropWhile_cons, if_neg hc]

theorem dropWhile_suffix_self (p : Char → Bool) (l : List Char) :
    l.dropWhile p <:+ l := by
  induction l with
  | nil => exact List.suffix_refl _
  | cons c rest ih =>
    rw [List.dropWhile_cons]
    split
    · exact ih.trans (List.suffix_cons c rest)
    · exact List.suffix_refl _

theorem mem_of_mem_pyStrip {x : Char} {l : List Char} (h : x ∈ pyStrip l) :
    x ∈ l := by
  rw [pyStrip, List.mem_reverse] at h
  have h2 := (dropWhile_suffix_self isPyWhitespace
    ((l.dropWhile isPyWhitespace).reverse)).sublist.subset h
  rw [List.mem_reverse] at h2
  exact (dropWhile_suffix_self isPyWhitespace l).sublist.subset h2

theorem dropWhile_length_le (p : Char → Bool) (l : List Char) :
    (l.dropWhile p).length ≤ l.length := by
  induction l with
  | nil => simp
  | cons c rest ih =>
    rw [List.dropWhile_cons]
    split
    · exact ih.trans (Nat.le_succ _)
    · exact Nat.le_refl _

theorem dropWhile_eq_self_of_prefix (p : Char → Bool) {B C : List Char}
    (hC : C <+: B) (hB : B.dropWhile p = B) : C.dropWhile p = C := by
  cases C with
  | nil => rfl
  | cons c C2 =>
    obtain ⟨t, ht⟩ := hC
    cases B with
    | nil => simp at ht
    | cons b B2 =>
      have hcb : c = b := by
        have hh := congrArg List.head? ht
        simpa using hh
      have hpb : p b = false := by
        by_contra hp
        rw [Bool.not_eq_false] at hp
        rw [List.dropWhile_cons, if_pos hp] at hB
        have h1 := congrArg List.length hB
        have h2 := dropWhile_length_le p B2
        simp at h1
        omega
      rw [List.dropWhile_cons, hcb, hpb]
      simp

theorem pyStrip_idem (l : List Char) : pyStrip (pyStrip l) = pyStrip l := by
  have hA : (l.dropWhile isPyWhitespace).dropWhile isPyWhitespace
      = l.dropWhile isPyWhitespace := dropWhile_idem _ _
  have hCpre : pyStrip l <+: l.dropWhile isPyWhitespace := by
    obtain ⟨u, hu⟩ := dropWhile_suffix_self isPyWhitespace
      ((l.dropWhile isPyWhitespace).reverse)
    refine ⟨u.reverse, ?_⟩
    have hrev := congrArg List.reverse hu
    rw [List.reverse_append, List.reverse_reverse] at hrev
    rw [pyStrip]
    exact hrev
  have hC : (pyStrip l).dropWhile isPyWhitespace = pyStrip l :=
    dropWhile_eq_self_of_prefix _ hCpre hA
  have hrev2 : (pyStrip l).reverse
      = ((l.dropWhile isPyWhitespace).reverse).dropWhile isPyWhitespace := by
    rw [pyStrip, List.reverse_reverse]
  conv_lhs => rw [pyStrip]
  rw [hC, hrev2, dropWhile_idem, ← hrev2, List.reverse_reverse]

theorem step2_no_nl {l : List Char} (h : '\n' ∉ l) : step2 l = pyStrip l := by
  rw [step2]
  exact step2go_no_nl _ _ _ fun hm => h (mem_of_mem_pyStrip hm)

theorem normalize_no_nl {l : List Char} (h : '\n' ∉ l) :
    normalize_page_text l = pyStrip l := by
  rw [normalize_page_text, step1_eq_self_of l (Or.inr h), step2_no_nl h]
  exact step3_no_nl fun hm => h (mem_of_mem_pyStrip hm)

/-- Claim C7 counterexample: the normalization is not idempotent.  For the
concrete page text `a\n \nb` (a whitespace paragraph separator as PDF
extraction produces them), one application yields `a\n\nb`: the two
newlines survive the newline-collapsing pass, guarded by their adjacent
`\s\n` / `\n\s` contexts, and the blank-line pass rewrites the whole run
to exactly `\n\n`.  A second application sees `a\n\nb`, where neither
newline is guarded any more (the lookarounds require a whitespace
character between two newlines), so both become spaces: `a  b`. -/
theorem c7_normalization_cex :
    normalize_page_text (("a\n \nb").data) = ("a\n\nb").data ∧
    normalize_page_text (("a\n\nb").data) = ("a  b").data ∧
    (normalize_page_text (normalize_page_text (("a\n \nb").data))
        == normalize_page_text (("a\n \nb").data)) = false := by
  have e1 : normalize_page_text (("a\n \nb").data) = ("a\n\nb").data := by
    rw [normalize_page_text, step1_eq_self_of _ (Or.inl (by decide))]
    rw [(by decide : step2 (("a\n \nb").data) = ("a\n \nb").data)]
    rw [show ("a\n \nb").data = 'a' :: '\n' :: ((" \nb").data) from rfl]
    rw [step3_cons_not_nl _ (by decide)]
    rw [step3_cons_nl_some _ [] ['b'] (by decide) (by decide)]
    simp only [List.nil_append]
    rw [step3_cons_not_nl _ (by decide), step3_nil]
  have e2 : normalize_page_text (("a\n\nb").data) = ("a  b").data := by
    rw [normalize_page_text, step1_eq_self_of _ (Or.inl (by decide))]
    rw [(by decide : step2 (("a\n\nb").data) = ("a  b").data)]
    exact step3_no_nl (by decide)
  refine ⟨e1, e2, ?_⟩
  rw [e1, e2]
  decide

/-- Claim C7 (amended): the per-page normalization is not idempotent in
general (see the counterexample: a normalized blank-line pair is rewritten
to spaces by a second pass); it is idempotent on newline-free text, where
it reduces to whitespace trimming. -/
theorem c7_normalization_idempotent_newline_free (l : List Char)
    (h : '\n' ∉ l) :
    normalize_page_text (normalize_page_text l) = normalize_page_text l ∧
    normalize_page_text l = pyStrip l := by
  have h1 := normalize_no_nl h
  have h2 : '\n' ∉ pyStrip l := fun hm => h (mem_of_mem_pyStrip hm)
  refine ⟨?_, h1⟩
  rw [h1, normalize_no_nl h2, pyStrip_idem]

/-- Claim C7 witness: the restricted idempotence applied to the concrete
newline-free page text `ab c`. -/
theorem c7_normalization_idempotent_newline_free_witness :
    ('\n' ∉ ("ab c").data) ∧
    (normalize_page_text (normalize_page_text (("ab c").data))
        = normalize_page_text (("ab c").data) ∧
      normalize_page_text (("ab c").data) = pyStrip (("ab c").data)) :=
  ⟨by decide, c7_normalization_idempotent_newline_free _ (by decide)⟩

/-- Left-to-right scan for `re.split("(sep)", text)` with a literal
(escaped) separator: emit the accumulated part at each leftmost
non-overlapping occurrence of `sep`.  `acc` holds the current part
reversed. -/
def splitOnAux (sep : List Char) (acc : List Char) : List Char → List (List Char)
  | [] => [acc.reverse]
  | c :: rest =>
    if sep.isPrefixOf (c :: rest) then
      acc.reverse :: splitOnAux sep [] (rest.drop (sep.length - 1))
    else splitOnAux sep (c :: acc) rest
termination_by l => l.length
decreasing_by
  · have := List.length_drop (sep.length - 1) rest
    simp
    omega
  · simp

/-- The parts of `text` between leftmost non-overlapping occurrences of
the literal separator `sep`. -/
def splitOnSep (sep text : List Char) : List (List Char) := splitOnAux sep [] text

/-- langchain's `_split_text_with_regex(text, re.escape(sep), keep_separator=True)`:
split on the separator and re-attach each separator occurrence to the
front of the part that follows it, then drop empty parts. -/
def splitKeepSep (text sep : List Char) : List (List Char) :=
  match splitOnSep sep text with
  | [] => []
  | c0 :: cs => (c0 :: cs.map fun c => sep ++ c).filter fun c => !c.isEmpty

/-- The running total `_merge_splits` keeps: the summed lengths of the
pending parts (the joining separator is empty under `keep_separator`). -/
def totalLen (docs : List (List Char)) : Nat := (docs.map List.length).sum

/-- langchain's `_join_docs(docs, "")` with the default
`strip_whitespace=True`: concatenate, strip, and drop an empty result. -/
def joinDocs (docs : List (List Char)) : Option (List Char) :=
  let text := pyStrip docs.join
  if text.isEmpty then none else some text

/-- The inner `while` of `_merge_splits`: with `chunk_size=4000` and
`chunk_overlap=200`, pop pending parts from the front while the running
total exceeds the overlap, or the next part (of length `nextLen`) would
not fit and something is pending. -/
def popLoop (cur : List (List Char)) (nextLen : Nat) : List (List Char) :=
  match cur with
  | [] => []
  | _ :: rest =>
    if totalLen cur > 200 || (totalLen cur + nextLen > 4000 && totalLen cur > 0) then
      popLoop rest nextLen
    else cur

/-- The main loop of langchain's `_merge_splits` with `chunk_size=4000`,
empty joining separator and whitespace stripping: parts accumulate in
`cur`; when the next part would push the total over the chunk size and
something is pending, the pending parts are flushed as one joined chunk
and the front is popped down to the overlap before continuing. -/
def mergeLoop : List (List Char) → List (List Char) → List (List Char) → List (List Char)
  | [], cur, docs => docs ++ (joinDocs cur).toList
  | d :: rest, cur, docs =>
    if totalLen cur + d.length > 4000 && !cur.isEmpty then
      mergeLoop rest (popLoop cur d.length ++ [d]) (docs ++ (joinDocs cur).toList)
    else
      mergeLoop rest (cur ++ [d]) docs

/-- langchain's `_merge_splits(splits, "")` as configured by the source. -/
def mergeSplits (splits : List (List Char)) : List (List Char) :=
  mergeLoop splits [] []

/-- The per-level loop of langchain's `_split_text`: parts shorter than
the chunk size (4000) gather in `good` and are flushed through
`_merge_splits` whenever an oversized part is met or the splits end; an
oversized part is recursively re-split with the remaining separators
(`recur = some f`) or, when no finer separator remains (`recur = none`),
appended to the output verbatim. -/
def processLevel (recur : Option (List Char → List (List Char)))
    (good : List (List Char)) : List (List Char) → List (List Char)
  | [] => if good.isEmpty then [] else mergeSplits good
  | s :: rest =>
    if s.length < 4000 then processLevel recur (good ++ [s]) rest
    else
      (if good.isEmpty then [] else mergeSplits good)
        ++ (match recur with
            | none => [s]
            | some f => f s)
        ++ processLevel recur [] rest

/-- langchain's `_split_text(text, [" "])`: the last level of the
cascade.  The separator defaults to the final one whether or not it
occurs, and `new_separators` is empty, so oversized parts are emitted
verbatim. -/
def splitTextSpace (text : List Char) : List (List Char) :=
  processLevel none [] (splitKeepSep text ((" ").data))

/-- langchain's `_split_text(text, [".", " "])`: split on the first
listed separator that occurs in the text (`re.search`), re-splitting
oversized parts with the remaining separators. -/
def splitTextPeriod (text : List Char) : List (List Char) :=
  if containsSubstr text ((".").data) then
    processLevel (some splitTextSpace) [] (splitKeepSep text ((".").data))
  else splitTextSpace text

/-- langchain's `_split_text(text, ["\n", ".", " "])`. -/
def splitTextNewline (text : List Char) : List (List Char) :=
  if containsSubstr text (("\n").data) then
    processLevel (some splitTextPeriod) [] (splitKeepSep text (("\n").data))
  else splitTextPeriod text

/-- `split_text` of the `RecursiveCharacterTextSplitter` constructed in
`text_to_docs`: `_split_text(text, ["\n\n", "\n", ".", " "])` with
`chunk_size=4000`, `chunk_overlap=200` — the recursion over separator
suffixes written out level by level. -/
def split_text (text : List Char) : List (List Char) :=
  if containsSubstr text (("\n\n").data) then
    processLevel (some splitTextNewline) [] (splitKeepSep text (("\n\n").data))
  else splitTextNewline text

/-- A langchain `Document` as `text_to_docs` builds them: chunk content
plus the provenance metadata `(filename, page, chunk index)`. -/
structure LCDocument where
  page_content : List Char
  filename : List Char
  page : Nat
  chunk : Nat
deriving DecidableEq

/-- The inner loop of `text_to_docs`: one `Document` per chunk, with the
running chunk index. -/
def docs_of_page (filename : List Char) (page_number : Nat) :
    Nat → List (List Char) → List LCDocument
  | _, [] => []
  | i, chunk :: rest =>
    { page_content := chunk, filename := filename, page := page_number, chunk := i }
      :: docs_of_page filename page_number (i + 1) rest

/-- `text_to_docs` from `data_processing.py`: split each page's text and
wrap every chunk with its provenance metadata, chunk indices restarting
at 0 on each page. -/
def text_to_docs : List Page → List Char → List LCDocument
  | [], _ => []
  | (text, page_number) :: rest, filename =>
    docs_of_page filename page_number 0 (split_text text)
      ++ text_to_docs rest filename

theorem containsSubstr_replicate_false (n : Nat) (sep : List Char) (c : Char)
    (hc : c ∈ sep) (hne : c ≠ 'a') :
    containsSubstr (List.replicate n 'a') sep = false := by
  by_contra h
  rw [Bool.not_eq_false] at h
  have hinf := (containsSubstr_iff _ _).mp h
  exact hne (List.eq_of_mem_replicate (hinf.sublist.subset hc))

theorem splitOnAux_no_match (sep : List Char) (acc l : List Char)
    (h : ∀ l', l' <:+ l → sep.isPrefixOf l' = false) :
    splitOnAux sep acc l = [acc.reverse ++ l] := by
  induction l generalizing acc with
  | nil =>
    rw [splitOnAux]
    simp
  | cons c rest ih =>
    rw [splitOnAux]
    rw [h (c :: rest) (List.suffix_refl _)]
    simp only [Bool.false_eq_true, if_false]
    rw [ih (c :: acc) fun l' hl' => h l' (hl'.trans (List.suffix_cons c rest))]
    simp

theorem splitOnSep_no_match (sep text : List Char)
    (h : containsSubstr text sep = false) : splitOnSep sep text = [text] := by
  rw [splitOnSep, splitOnAux_no_match]
  · simp
  · intro l' hsuf
    by_contra hb
    rw [Bool.not_eq_false, List.isPrefixOf_iff_prefix] at hb
    obtain ⟨t, rfl⟩ := hb
    obtain ⟨v, rfl⟩ := hsuf
    have : sep <:+: v ++ (sep ++ t) := ⟨v, t, by simp⟩
    rw [containsSubstr_of_occurs this] at h
    exact absurd h (by simp)

theorem splitKeepSep_no_match (text sep : List Char)
    (h : containsSubstr text sep = false) (hne : text ≠ []) :
    splitKeepSep text sep = [text] := by
  rw [splitKeepSep, splitOnSep_no_match sep text h]
  simp [hne]

theorem split_text_replicate :
    split_text (List.replicate 4001 'a') = [List.replicate 4001 'a'] := by
  have hne : List.replicate 4001 'a' ≠ [] := by
    intro h
    have hlen := congrArg List.length h
    rw [List.length_replicate, List.length_nil] at hlen
    exact absurd hlen (by omega)
  rw [split_text,
    containsSubstr_replicate_false 4001 (("\n\n").data) '\n' (by decide) (by decide)]
  simp only [Bool.false_eq_true, if_false]
  rw [splitTextNewline,
    containsSubstr_replicate_false 4001 (("\n").data) '\n' (by decide) (by decide)]
  simp only [Bool.false_eq_true, if_false]
  rw [splitTextPeriod,
    containsSubstr_replicate_false 4001 ((".").data) '.' (by decide) (by decide)]
  simp only [Bool.false_eq_true, if_false]
  rw [splitTextSpace,
    splitKeepSep_no_match _ _
      (containsSubstr_replicate_false 4001 ((" ").data) ' ' (by decide) (by decide)) hne]
  rw [processLevel]
  have hlt : ¬ (List.replicate 4001 'a').length < 4000 := by
    rw [List.length_replicate]
    omega
  rw [if_neg hlt, processLevel]
  rfl

/-- Claim C2 counterexample: the chunker does not bound chunk length.  A
page consisting of 4001 repetitions of `a` — more than 4000 characters
with no paragraph break, newline, period or space — contains none of the
configured separators, so `split_text` emits the whole run verbatim as a
single chunk, and the produced passage has 4001 > 4000 characters. -/
theorem c2_chunk_size_cex :
    text_to_docs [(List.replicate 4001 'a', 1)] (("f").data)
      = [{ page_content := List.replicate 4001 'a'
         , filename := ("f").data, page := 1, chunk := 0 }] ∧
    (List.replicate 4001 'a').length = 4001 ∧
    ((text_to_docs [(List.replicate 4001 'a', 1)] (("f").data)).all
        fun d => d.page_content.length ≤ 4000) = false := by
  have hdocs : text_to_docs [(List.replicate 4001 'a', 1)] (("f").data)
      = [{ page_content := List.replicate 4001 'a'
         , filename := ("f").data, page := 1, chunk := 0 }] := by
    rw [text_to_docs, split_text_replicate, docs_of_page, docs_of_page, text_to_docs]
    rfl
  refine ⟨hdocs, by rw [List.length_replicate], ?_⟩
  rw [hdocs]
  simp only [List.all_cons, List.all_nil, Bool.and_true, List.length_replicate]
  decide

theorem pyStrip_length_le (l : List Char) : (pyStrip l).length ≤ l.length := by
  rw [pyStrip, List.length_reverse]
  calc (((l.dropWhile isPyWhitespace).reverse).dropWhile isPyWhitespace).length
      ≤ (l.dropWhile isPyWhitespace).reverse.length := dropWhile_length_le _ _
    _ = (l.dropWhile isPyWhitespace).length := List.length_reverse _
    _ ≤ l.length := dropWhile_length_le _ _

theorem totalLen_append (a b : List (List Char)) :
    totalLen (a ++ b) = totalLen a + totalLen b := by
  simp [totalLen]

theorem totalLen_singleton (d : List Char) : totalLen [d] = d.length := by
  simp [totalLen]

theorem joinDocs_some_length {docs : List (List Char)} {x : List Char}
    (h : joinDocs docs = some x) : x.length ≤ totalLen docs := by
  rw [joinDocs] at h
  split at h
  · exact absurd h (by simp)
  · injection h with h
    subst h
    have h1 := pyStrip_length_le docs.join
    rw [List.length_join] at h1
    exact h1

theorem popLoop_post (cur : List (List Char)) (n : Nat) :
    totalLen (popLoop cur n) ≤ 200 ∧
      (totalLen (popLoop cur n) + n ≤ 4000 ∨ totalLen (popLoop cur n) = 0) := by
  induction cur with
  | nil =>
    rw [popLoop]
    simp [totalLen]
  | cons d rest ih =>
    rw [popLoop]
    split
    · exact ih
    · rename_i hcond
      simp only [Bool.or_eq_true, Bool.and_eq_true, decide_eq_true_eq, not_or,
        not_and] at hcond
      obtain ⟨h1, h2⟩ := hcond
      refine ⟨by omega, ?_⟩
      by_cases hz : totalLen (d :: rest) = 0
      · exact Or.inr hz
      · left
        by_contra hgt
        exact h2 (by omega) (by omega)

theorem mem_docs_flush {docs cur : List (List Char)} {c : List Char}
    (hd : ∀ x ∈ docs, x.length ≤ 4000) (hc : totalLen cur ≤ 4000)
    (hm : c ∈ docs ++ (joinDocs cur).toList) : c.length ≤ 4000 := by
  rcases List.mem_append.mp hm with h | h
  · exact hd c h
  · rw [Option.mem_toList, Option.mem_def] at h
    exact (joinDocs_some_length h).trans hc

theorem mergeLoop_bound (splits : List (List Char)) :
    ∀ (cur docs : List (List Char)),
      (∀ s ∈ splits, s.length < 4000) → totalLen cur ≤ 4000 →
      (∀ x ∈ docs, x.length ≤ 4000) →
      ∀ c ∈ mergeLoop splits cur docs, c.length ≤ 4000 := by
  induction splits with
  | nil =>
    intro cur docs _ hc hd c hm
    rw [mergeLoop] at hm
    exact mem_docs_flush hd hc hm
  | cons d rest ih =>
    intro cur docs hs hc hd c hm
    rw [mergeLoop] at hm
    have hdlen : d.length < 4000 := hs d (List.mem_cons_self _ _)
    split at hm
    · refine ih _ _ (fun s h => hs s (List.mem_cons_of_mem _ h)) ?_
        (fun x hx => mem_docs_flush hd hc hx) c hm
      have hp := popLoop_post cur d.length
      rw [totalLen_append, totalLen_singleton]
      omega
    · rename_i hcond
      simp only [Bool.and_eq_true, decide_eq_true_eq, not_and,
        Bool.not_eq_true'] at hcond
      refine ih _ _ (fun s h => hs s (List.mem_cons_of_mem _ h)) ?_ hd c hm
      rw [totalLen_append, totalLen_singleton]
      by_cases hgt : 4000 < totalLen cur + d.length
      · have hz : cur = [] := by
          have h3 := hcond hgt
          rw [← List.isEmpty_iff]
          simpa using h3
        subst hz
        have : totalLen ([] : List (List Char)) = 0 := rfl
        omega
      · omega

theorem mergeSplits_bound (splits : List (List Char))
    (hs : ∀ s ∈ splits, s.length < 4000) :
    ∀ c ∈ mergeSplits splits, c.length ≤ 4000 := by
  intro c hm
  rw [mergeSplits] at hm
  exact mergeLoop_bound splits [] [] hs (by simp [totalLen]) (by simp) c hm

theorem splitOnAux_space_parts (l : List Char) :
    ∀ acc : List Char, (∀ x ∈ acc, x ≠ ' ') →
      ∀ part ∈ splitOnAux [' '] acc l, ∀ x ∈ part, x ≠ ' ' := by
  induction l with
  | nil =>
    intro acc hacc part hp x hx
    rw [splitOnAux] at hp
    rw [List.mem_singleton] at hp
    subst hp
    exact hacc x (List.mem_reverse.mp hx)
  | cons c rest ih =>
    intro acc hacc part hp x hx
    rw [splitOnAux] at hp
    by_cases hpre : ([' '] : List Char).isPrefixOf (c :: rest) = true
    · rw [if_pos hpre] at hp
      rcases List.mem_cons.mp hp with rfl | hp2
      · exact hacc x (List.mem_reverse.mp hx)
      · have hp3 : part ∈ splitOnAux [' '] [] rest := by simpa using hp2
        exact ih [] (by simp) part hp3 x hx
    · rw [if_neg hpre] at hp
      have hc : c ≠ ' ' := by
        intro he
        subst he
        exact hpre (by simp [List.isPrefixOf])
      refine ih (c :: acc) ?_ part hp x hx
      intro y hy
      rcases List.mem_cons.mp hy with rfl | hy2
      · exact hc
      · exact hacc y hy2

theorem splitKeepSep_space_tail (text : List Char) :
    ∀ s ∈ splitKeepSep text ((" ").data), ∀ x ∈ s.tail, x ≠ ' ' := by
  intro s hs x hx
  rw [splitKeepSep] at hs
  have hparts := splitOnAux_space_parts text [] (by simp)
  cases hsp : splitOnSep ((" ").data) text with
  | nil =>
    rw [hsp] at hs
    exact absurd hs (by simp)
  | cons c0 cs =>
    rw [hsp] at hs
    have hmem := (List.mem_filter.mp hs).1
    have hspx : splitOnAux [' '] [] text = c0 :: cs := hsp
    rcases List.mem_cons.mp hmem with rfl | hmem2
    · exact hparts s (by rw [hspx]; exact List.mem_cons_self _ _) x
        (List.mem_of_mem_tail hx)
    · obtain ⟨ci, hci, rfl⟩ := List.mem_map.mp hmem2
      have hx2 : x ∈ ci := by simpa using hx
      exact hparts ci (by rw [hspx]; exact List.mem_cons_of_mem _ hci) x hx2

theorem processLevel_ok (recur : Option (List Char → List (List Char)))
    (splits : List (List Char)) :
    ∀ good : List (List Char),
      (∀ s ∈ good, s.length < 4000) →
      (∀ s ∈ splits, 4000 ≤ s.length →
        ∀ c ∈ ((match recur with | none => [s] | some f => f s)
            : List (List Char)),
          c.length ≤ 4000 ∨ ∀ x ∈ c.tail, x ≠ ' ') →
      ∀ c ∈ processLevel recur good splits,
        c.length ≤ 4000 ∨ ∀ x ∈ c.tail, x ≠ ' ' := by
  induction splits with
  | nil =>
    intro good hgood _ c hm
    rw [processLevel.eq_def] at hm
    simp only [] at hm
    split at hm
    · exact absurd hm (by simp)
    · exact Or.inl (mergeSplits_bound good hgood c hm)
  | cons s rest ih =>
    intro good hgood hbig c hm
    rw [processLevel.eq_def] at hm
    simp only [] at hm
    split at hm
    · rename_i hlen
      refine ih _ ?_ (fun s' h' h4 => hbig s' (List.mem_cons_of_mem _ h') h4) c hm
      intro s' hs'
      rcases List.mem_append.mp hs' with h | h
      · exact hgood s' h
      · rw [List.mem_singleton] at h
        subst h
        exact hlen
    · rename_i hlen
      rcases List.mem_append.mp hm with hm1 | hm1
      · rcases List.mem_append.mp hm1 with hm2 | hm2
        · split at hm2
          · exact absurd hm2 (by simp)
          · exact Or.inl (mergeSplits_bound good hgood c hm2)
        · exact hbig s (List.mem_cons_self _ _) (by omega) c hm2
      · exact ih [] (by simp) (fun s' h' h4 => hbig s' (List.mem_cons_of_mem _ h') h4) c hm1

theorem splitTextSpace_ok (text : List Char) :
    ∀ c ∈ splitTextSpace text, c.length ≤ 4000 ∨ ∀ x ∈ c.tail, x ≠ ' ' := by
  intro c hm
  rw [splitTextSpace] at hm
  refine processLevel_ok none _ [] (by simp) ?_ c hm
  intro s hs _ c' hc'
  have hc2 : c' ∈ [s] := hc'
  rw [List.mem_singleton] at hc2
  subst hc2
  exact Or.inr (splitKeepSep_space_tail text c' hs)

theorem splitTextPeriod_ok (text : List Char) :
    ∀ c ∈ splitTextPeriod text, c.length ≤ 4000 ∨ ∀ x ∈ c.tail, x ≠ ' ' := by
  intro c hm
  rw [splitTextPeriod] at hm
  split at hm
  · refine processLevel_ok (some splitTextSpace) _ [] (by simp) ?_ c hm
    intro s _ _ c' hc'
    exact splitTextSpace_ok s c' hc'
  · exact splitTextSpace_ok text c hm

theorem splitTextNewline_ok (text : List Char) :
    ∀ c ∈ splitTextNewline text, c.length ≤ 4000 ∨ ∀ x ∈ c.tail, x ≠ ' ' := by
  intro c hm
  rw [splitTextNewline] at hm
  split at hm
  · refine processLevel_ok (some splitTextPeriod) _ [] (by simp) ?_ c hm
    intro s _ _ c' hc'
    exact splitTextPeriod_ok s c' hc'
  · exact splitTextPeriod_ok text c hm

theorem split_text_ok (text : List Char) :
    ∀ c ∈ split_text text, c.length ≤ 4000 ∨ ∀ x ∈ c.tail, x ≠ ' ' := by
  intro c hm
  rw [split_text] at hm
  split at hm
  · refine processLevel_ok (some splitTextNewline) _ [] (by simp) ?_ c hm
    intro s _ _ c' hc'
    exact splitTextNewline_ok s c' hc'
  · exact splitTextNewline_ok text c hm

theorem docs_of_page_content (filename : List Char) (pn : Nat) :
    ∀ (chunks : List (List Char)) (i : Nat) (d : LCDocument),
      d ∈ docs_of_page filename pn i chunks → d.page_content ∈ chunks := by
  intro chunks
  induction chunks with
  | nil =>
    intro i d h
    rw [docs_of_page] at h
    exact absurd h (by simp)
  | cons ch rest ih =>
    intro i d h
    rw [docs_of_page] at h
    rcases List.mem_cons.mp h with rfl | h2
    · exact List.mem_cons_self _ _
    · exact List.mem_cons_of_mem _ (ih _ _ h2)

/-- Claim C2 (amended): a produced chunk is not always at most 4000
characters long.  Every chunk either has length at most 4000 (all chunks
assembled by the merge step do), or is a piece that the finest separator
cannot subdivide — past its first character it contains no space — and was
emitted verbatim; such pieces may be arbitrarily longer than 4000
characters, as the counterexample's separator-free 4001-character page
shows. -/
theorem c2_chunk_length_amended (pages : List Page) (filename : List Char)
    (d : LCDocument) (hd : d ∈ text_to_docs pages filename) :
    d.page_content.length ≤ 4000 ∨ ∀ x ∈ d.page_content.tail, x ≠ ' ' := by
  induction pages with
  | nil =>
    rw [text_to_docs] at hd
    exact absurd hd (by simp)
  | cons p rest ih =>
    obtain ⟨text, pn⟩ := p
    rw [text_to_docs] at hd
    rcases List.mem_append.mp hd with h | h
    · exact split_text_ok text _ (docs_of_page_content filename pn _ 0 d h)
    · exact ih h

/-- Claim C2 witness: the amended bound applied to the concrete
separator-free oversized page, whose single chunk falls under the
no-space-after-first-character disjunct. -/
theorem c2_chunk_length_amended_witness :
    ((⟨List.replicate 4001 'a', ("f").data, 1, 0⟩ : LCDocument)
        ∈ text_to_docs [(List.replicate 4001 'a', 1)] (("f").data)) ∧
    ((⟨List.replicate 4001 'a', ("f").data, 1, 0⟩ : LCDocument).page_content.length
          ≤ 4000 ∨
      ∀ x ∈ (⟨List.replicate 4001 'a', ("f").data, 1, 0⟩
          : LCDocument).page_content.tail, x ≠ ' ') := by
  have hmem : (⟨List.replicate 4001 'a', ("f").data, 1, 0⟩ : LCDocument)
      ∈ text_to_docs [(List.replicate 4001 'a', 1)] (("f").data) := by
    rw [text_to_docs, split_text_replicate, docs_of_page]
    exact List.mem_append_left _ (List.mem_cons_self _ _)
  exact ⟨hmem, c2_chunk_length_amended _ _ _ hmem⟩

/-- The result of `parse_pdf` for one document as the ingestion loop sees
it: either the parsed page list, or the exception path (any failure while
parsing this document). -/
inductive ParseOutcome where
  | parsed (pages : List Page) : ParseOutcome
  | failed : ParseOutcome
deriving DecidableEq

/-- The per-document loop of `get_chroma_index_for_pdf` in
`data_processing.py`, over `(filename, parse outcome)` pairs in upload
order.  Returns `(documents, flagged_files, successful_files)`: a parse
failure flags the document and contributes no passages; a parsed document
is chunked into passages and recorded successful when the relevance filter
admits it, and flagged otherwise.  The `documents` list is exactly what
`vectordb.add_documents` inserts afterwards. -/
def ingest_loop : List (List Char × ParseOutcome) →
    List LCDocument × List (List Char) × List (List Char)
  | [] => ([], [], [])
  | (filename, outcome) :: rest =>
    let r := ingest_loop rest
    match outcome with
    | .failed => (r.1, filename :: r.2.1, r.2.2)
    | .parsed pages =>
      if is_nlp_relevant pages then
        (text_to_docs pages filename ++ r.1, r.2.1, filename :: r.2.2)
      else (r.1, filename :: r.2.1, r.2.2)

theorem ingest_loop_cons (filename : List Char) (outcome : ParseOutcome)
    (rest : List (List Char × ParseOutcome)) :
    ingest_loop ((filename, outcome) :: rest) =
      match outcome with
      | .failed => ((ingest_loop rest).1, filename :: (ingest_loop rest).2.1,
          (ingest_loop rest).2.2)
      | .parsed pages =>
        if is_nlp_relevant pages then
          (text_to_docs pages filename ++ (ingest_loop rest).1,
            (ingest_loop rest).2.1, filename :: (ingest_loop rest).2.2)
        else ((ingest_loop rest).1, filename :: (ingest_loop rest).2.1,
          (ingest_loop rest).2.2) := rfl

theorem ingest_loop_append (l1 l2 : List (List Char × ParseOutcome)) :
    ingest_loop (l1 ++ l2) =
      ((ingest_loop l1).1 ++ (ingest_loop l2).1,
        (ingest_loop l1).2.1 ++ (ingest_loop l2).2.1,
        (ingest_loop l1).2.2 ++ (ingest_loop l2).2.2) := by
  induction l1 with
  | nil =>
    rw [List.nil_append]
    rw [show ingest_loop [] = ([], [], []) from rfl]
    simp
  | cons e rest ih =>
    obtain ⟨filename, outcome⟩ := e
    rw [List.cons_append, ingest_loop_cons, ingest_loop_cons, ih]
    cases outcome with
    | failed => rfl
    | parsed pages =>
      by_cases h : is_nlp_relevant pages = true
      · simp [h]
      · rw [Bool.not_eq_true] at h
        simp [h]

/-- Claim C8: a parse failure is non-fatal to the batch.  Placing a
failing document anywhere in the upload list leaves the passages inserted
for the other documents unchanged (the failed document contributes none),
reports the failing document's name in the flagged-files list at its batch
position, leaves the successful-files list unchanged, and processing of
the documents after it continues exactly as without it. -/
theorem c8_parse_failure_nonfatal (pre post : List (List Char × ParseOutcome))
    (name : List Char) :
    (ingest_loop (pre ++ (name, .failed) :: post)).1
        = (ingest_loop pre).1 ++ (ingest_loop post).1 ∧
    (ingest_loop (pre ++ (name, .failed) :: post)).2.1
        = (ingest_loop pre).2.1 ++ name :: (ingest_loop post).2.1 ∧
    (ingest_loop (pre ++ (name, .failed) :: post)).2.2
        = (ingest_loop pre).2.2 ++ (ingest_loop post).2.2 ∧
    name ∈ (ingest_loop (pre ++ (name, .failed) :: post)).2.1 := by
  have hmid : ingest_loop ((name, ParseOutcome.failed) :: post)
      = ((ingest_loop post).1, name :: (ingest_loop post).2.1,
          (ingest_loop post).2.2) := by
    rw [ingest_loop]
  rw [ingest_loop_append, hmid]
  refine ⟨rfl, rfl, rfl, ?_⟩
  exact List.mem_append_right _ (List.mem_cons_self _ _)
